import Mathlib

/-!
Shallow embedding of the `wait-around` single-producer/single-consumer
byte pipe (`src/src/lib.rs`) and verification of its specification.

The ring state is the `RingBuffer` struct: a backing store `data` of fixed
length (the capacity), monotone cursors `read_idx` / `write_idx` kept in the
doubled modulus `[0, 2*capacity)`, and a single waker slot.  Wakers are
modelled as opaque `Nat` tokens; "signaling" a waker is modelled by
returning the token that `wake` removed from the slot.  Bytes are modelled
as `Nat`s; the Rust `Vec<u8>` backing store is a `List Nat`.  The fallible
slice operations of the source are modelled by total `List.take` /
`List.drop` arithmetic, and the in-bounds conditions that make the total
model agree with the partial Rust slicing are proved separately
(`ArithSafe`).
-/

namespace WaitAround

/-- The two outcomes of polling an async operation (`core::task::Poll`). -/
inductive Poll (α : Type) where
  | Ready : α → Poll α
  | Pending : Poll α
  deriving DecidableEq, Repr

/-- The shared ring state (`struct RingBuffer` in the source).  Both
endpoints of the pipe share this state through an `Rc<RefCell<_>>`; the
embedding threads it explicitly. -/
structure RingBuffer where
  data : List Nat
  read_idx : Nat
  write_idx : Nat
  waker : Option Nat
  deriving DecidableEq, Repr

/-- The capacity of the ring is the length of the backing store. -/
def RingBuffer.capacity (rb : RingBuffer) : Nat :=
  rb.data.length

/-- `RingBuffer::with_capacity`: fresh state, both cursors zero, empty waker
slot.  The source returns a `(Writer, Reader)` pair sharing this state; the
embedding works with the state directly. -/
def RingBuffer.with_capacity (n : Nat) : RingBuffer :=
  { data := List.replicate n 0, read_idx := 0, write_idx := 0, waker := none }

/-- `RingBuffer::wrap`: reduce a doubled-modulus cursor to a physical
position by subtracting the capacity once when the cursor is at or past it. -/
def RingBuffer.wrap (rb : RingBuffer) (idx : Nat) : Nat :=
  let capacity := rb.data.length
  if idx ≥ capacity then idx - capacity else idx

/-- `RingBuffer::read`: advance the read cursor by `amount`, reducing into
`[0, 2*capacity)`. -/
def RingBuffer.read (rb : RingBuffer) (amount : Nat) : RingBuffer :=
  let r := rb.read_idx + amount
  let capacity := rb.data.length
  { rb with read_idx := if r ≥ 2 * capacity then r - 2 * capacity else r }

/-- `RingBuffer::wrote`: advance the write cursor by `amount`, reducing into
`[0, 2*capacity)`. -/
def RingBuffer.wrote (rb : RingBuffer) (amount : Nat) : RingBuffer :=
  let w := rb.write_idx + amount
  let capacity := rb.data.length
  { rb with write_idx := if w ≥ 2 * capacity then w - 2 * capacity else w }

/-- `RingBuffer::readable`: the contiguous non-wrapping span of buffered
bytes starting at the physical read position. -/
def RingBuffer.readable (rb : RingBuffer) : Nat :=
  if rb.read_idx = rb.write_idx then 0
  else
    let read_idx := rb.wrap rb.read_idx
    let write_idx := rb.wrap rb.write_idx
    if read_idx < write_idx then write_idx - read_idx
    else rb.data.length - read_idx

/-- `RingBuffer::writeable`: the contiguous non-wrapping span of free bytes
starting at the physical write position.  Nat subtraction is truncated where
the Rust `usize` subtraction would fault; `ArithSafe` shows the operands are
in range on every state satisfying the invariant. -/
def RingBuffer.writeable (rb : RingBuffer) : Nat :=
  let capacity := rb.data.length
  let write_idx := if rb.write_idx < rb.read_idx then rb.write_idx + 2 * capacity
                   else rb.write_idx
  let remaining_space := capacity - (write_idx - rb.read_idx)
  let space_before_end := capacity - rb.wrap rb.write_idx
  min remaining_space space_before_end

/-- `RingBuffer::park`: store the caller's waker, displacing any previous
token without signaling it. -/
def RingBuffer.park (rb : RingBuffer) (w : Nat) : RingBuffer :=
  { rb with waker := some w }

/-- `RingBuffer::wake`: take the stored waker out of the slot (left
component: the token that gets signaled, if any) and clear the slot. -/
def RingBuffer.wake (rb : RingBuffer) : Option Nat × RingBuffer :=
  (rb.waker, { rb with waker := none })

/-- Model of `copy_from_slice` into the range `[b, b + src.length)` of
`data` (total: out-of-range parts are truncated; `ArithSafe` shows the
range is in bounds on reachable states). -/
def setSlice (data : List Nat) (b : Nat) (src : List Nat) : List Nat :=
  data.take b ++ src ++ data.drop (b + src.length)

/-- Everything one poll of an endpoint produces: the poll result (with the
never-populated error arm of the source's `Result`), the waker token
signaled during the poll (if any), and the ring state after the poll. -/
structure PollOut (α : Type) where
  result : Poll (Except Unit α)
  signaled : Option Nat
  state : RingBuffer
  deriving Repr

/-- `Reader::poll_read`.  The caller's buffer is represented by its length
`bufLen`; the bytes delivered into it are returned as the `Ready` payload
(their count is the source's return value `n`).  `w` is the caller's waker
token. -/
def poll_read (rb : RingBuffer) (bufLen : Nat) (w : Nat) : PollOut (List Nat) :=
  let n := min rb.readable bufLen
  if 0 < n then
    let b := rb.wrap rb.read_idx
    let out := (rb.data.drop b).take n
    let rb1 := rb.read n
    let wr := rb1.wake
    { result := Poll.Ready (Except.ok out), signaled := wr.1, state := wr.2 }
  else
    { result := Poll.Pending, signaled := none, state := rb.park w }

/-- `Writer::poll_write`.  `buf` is the caller's byte buffer, `w` the
caller's waker token; the `Ready` payload is the accepted byte count. -/
def poll_write (rb : RingBuffer) (buf : List Nat) (w : Nat) : PollOut Nat :=
  let n := min rb.writeable buf.length
  if 0 < n then
    let b := rb.wrap rb.write_idx
    let rb1 := { rb with data := setSlice rb.data b (buf.take n) }
    let rb2 := rb1.wrote n
    let wr := rb2.wake
    { result := Poll.Ready (Except.ok n), signaled := wr.1, state := wr.2 }
  else
    { result := Poll.Pending, signaled := none, state := rb.park w }

/-- `Writer::poll_flush`: immediate success, state untouched. -/
def poll_flush (rb : RingBuffer) : PollOut Unit :=
  { result := Poll.Ready (Except.ok ()), signaled := none, state := rb }

/-- `Writer::poll_close`: immediate success, state untouched. -/
def poll_close (rb : RingBuffer) : PollOut Unit :=
  { result := Poll.Ready (Except.ok ()), signaled := none, state := rb }

/-- The buffered byte count of spec invariant 2:
`(write_idx - read_idx) mod 2*capacity`, written over `Nat` with the
doubled modulus added first so the subtraction cannot truncate. -/
def bufferedCount (rb : RingBuffer) : Nat :=
  (2 * rb.data.length + rb.write_idx - rb.read_idx) % (2 * rb.data.length)

/-- The ring-state invariant of the spec (invariants 1 and 2): both cursors
in `[0, 2*capacity)` and the buffered byte count in `[0, capacity]`. -/
def Inv (rb : RingBuffer) : Prop :=
  rb.read_idx < 2 * rb.data.length ∧ rb.write_idx < 2 * rb.data.length ∧
    bufferedCount rb ≤ rb.data.length

/-- The invariant satisfied by every reachable state, capacity 0 included:
for positive capacity it is `Inv`; a capacity-0 ring keeps both cursors
pinned at 0. -/
def Inv0 (rb : RingBuffer) : Prop :=
  Inv rb ∨ (rb.data = [] ∧ rb.read_idx = 0 ∧ rb.write_idx = 0)

/-- The logical queue contents of the ring: `bufferedCount` bytes starting
at the physical read position, read circularly (the doubled list makes the
wrap-around a plain contiguous slice). -/
def contents (rb : RingBuffer) : List Nat :=
  ((rb.data ++ rb.data).drop (rb.wrap rb.read_idx)).take (bufferedCount rb)

end WaitAround

namespace WaitAround

instance (rb : RingBuffer) : Decidable (Inv rb) := by
  unfold Inv
  infer_instance

instance (rb : RingBuffer) : Decidable (Inv0 rb) := by
  unfold Inv0
  infer_instance

/-- `wrap` agrees with reduction modulo the capacity on every cursor in the
doubled modulus (and on a capacity-0 ring, where both are the identity). -/
theorem wrap_eq_mod (rb : RingBuffer) (idx : Nat)
    (h : idx < 2 * rb.data.length ∨ rb.data.length = 0) :
    rb.wrap idx = idx % rb.data.length := by
  simp only [RingBuffer.wrap]
  rcases h with h | h
  · split
    · rename Nat.le rb.data.length idx => hge
      rw [Nat.mod_eq_sub_mod hge, Nat.mod_eq_of_lt (by omega)]
    · rename ¬ Nat.le rb.data.length idx => hlt
      rw [Nat.mod_eq_of_lt (by omega)]
  · simp [h]

/-- Mod-free form of `bufferedCount` on states whose cursors are in the
doubled modulus. -/
theorem bufferedCount_eq (rb : RingBuffer)
    (hr : rb.read_idx < 2 * rb.data.length)
    (hw : rb.write_idx < 2 * rb.data.length) :
    bufferedCount rb =
      if rb.read_idx ≤ rb.write_idx then rb.write_idx - rb.read_idx
      else 2 * rb.data.length + rb.write_idx - rb.read_idx := by
  unfold bufferedCount
  split
  · rename rb.read_idx ≤ rb.write_idx => hle
    have h1 : 2 * rb.data.length + rb.write_idx - rb.read_idx
        = (rb.write_idx - rb.read_idx) + 2 * rb.data.length := by omega
    rw [h1, Nat.add_mod_right, Nat.mod_eq_of_lt (by omega)]
  · rename ¬ rb.read_idx ≤ rb.write_idx => hgt
    rw [Nat.mod_eq_of_lt (by omega)]

end WaitAround

namespace WaitAround

/-- `readable` on an `Inv` state is the buffered count clipped to the span
before the wrap point. -/
theorem readable_eq (rb : RingBuffer) (h : Inv rb) :
    rb.readable = min (bufferedCount rb) (rb.data.length - rb.wrap rb.read_idx) := by
  obtain ⟨hr, hw, hcnt⟩ := h
  rw [bufferedCount_eq rb hr hw] at hcnt ⊢
  simp only [RingBuffer.readable, RingBuffer.wrap]
  split_ifs at hcnt ⊢ <;> omega

/-- `writeable` on an `Inv` state is the free count clipped to the span
before the wrap point. -/
theorem writeable_eq (rb : RingBuffer) (h : Inv rb) :
    rb.writeable = min (rb.data.length - bufferedCount rb)
      (rb.data.length - rb.wrap rb.write_idx) := by
  obtain ⟨hr, hw, hcnt⟩ := h
  have h1 := bufferedCount_eq rb hr hw
  simp only [RingBuffer.writeable, RingBuffer.wrap]
  split_ifs at h1 <;> rw [h1] at hcnt ⊢ <;> split_ifs <;> omega

/-- On an `Inv` state the ring is empty exactly when the cursors agree. -/
theorem bufferedCount_eq_zero_iff (rb : RingBuffer) (h : Inv rb) :
    bufferedCount rb = 0 ↔ rb.read_idx = rb.write_idx := by
  obtain ⟨hr, hw, hcnt⟩ := h
  rw [bufferedCount_eq rb hr hw]
  split_ifs <;> omega

/-- The wrapped cursors of an `Inv` state are physical positions, and the
wrapped write cursor sits `bufferedCount` bytes after the wrapped read
cursor, possibly once around the ring. -/
theorem cursor_decomp (rb : RingBuffer) (h : Inv rb) :
    rb.wrap rb.read_idx ≤ rb.data.length ∧ rb.wrap rb.write_idx ≤ rb.data.length ∧
      (rb.wrap rb.read_idx + bufferedCount rb = rb.wrap rb.write_idx ∨
       rb.wrap rb.read_idx + bufferedCount rb = rb.wrap rb.write_idx + rb.data.length) := by
  obtain ⟨hr, hw, hcnt⟩ := h
  rw [bufferedCount_eq rb hr hw] at hcnt ⊢
  simp only [RingBuffer.wrap]
  split_ifs at hcnt ⊢ <;> omega

/-- Field-level description of `RingBuffer.read`. -/
theorem read_cursor (rb : RingBuffer) (n : Nat) :
    (rb.read n).data = rb.data ∧ (rb.read n).write_idx = rb.write_idx ∧
      (rb.read n).waker = rb.waker ∧
      (rb.read n).read_idx =
        if rb.read_idx + n ≥ 2 * rb.data.length then rb.read_idx + n - 2 * rb.data.length
        else rb.read_idx + n :=
  ⟨rfl, rfl, rfl, rfl⟩

/-- Field-level description of `RingBuffer.wrote`. -/
theorem wrote_cursor (rb : RingBuffer) (n : Nat) :
    (rb.wrote n).data = rb.data ∧ (rb.wrote n).read_idx = rb.read_idx ∧
      (rb.wrote n).waker = rb.waker ∧
      (rb.wrote n).write_idx =
        if rb.write_idx + n ≥ 2 * rb.data.length then rb.write_idx + n - 2 * rb.data.length
        else rb.write_idx + n :=
  ⟨rfl, rfl, rfl, rfl⟩

/-- Advancing the read cursor by at most the buffered count removes exactly
that many bytes from the count and keeps the cursor in the doubled modulus. -/
theorem bufferedCount_read (rb : RingBuffer) (n : Nat)
    (hr : rb.read_idx < 2 * rb.data.length) (hw : rb.write_idx < 2 * rb.data.length)
    (hn : n ≤ bufferedCount rb) :
    bufferedCount (rb.read n) = bufferedCount rb - n ∧
      (rb.read n).read_idx < 2 * rb.data.length := by
  have h1 := bufferedCount_eq rb hr hw
  obtain ⟨hd, hwi, hwk, hri⟩ := read_cursor rb n
  rw [h1] at hn
  have hr2 : (rb.read n).read_idx < 2 * rb.data.length := by
    rw [hri]; split_ifs at hn ⊢ <;> omega
  have h2 := bufferedCount_eq (rb.read n) (by rw [hd]; exact hr2) (by rw [hd, hwi]; exact hw)
  rw [hd, hwi] at h2
  refine ⟨?_, hr2⟩
  rw [h1, h2, hri]
  split_ifs at hn ⊢ <;> omega

/-- Advancing the write cursor by at most the free count adds exactly that
many bytes to the count and keeps the cursor in the doubled modulus. -/
theorem bufferedCount_wrote (rb : RingBuffer) (n : Nat)
    (hr : rb.read_idx < 2 * rb.data.length) (hw : rb.write_idx < 2 * rb.data.length)
    (hn : bufferedCount rb + n ≤ rb.data.length) :
    bufferedCount (rb.wrote n) = bufferedCount rb + n ∧
      (rb.wrote n).write_idx < 2 * rb.data.length := by
  have h1 := bufferedCount_eq rb hr hw
  obtain ⟨hd, hri, hwk, hwi⟩ := wrote_cursor rb n
  rw [h1] at hn
  have hw2 : (rb.wrote n).write_idx < 2 * rb.data.length := by
    rw [hwi]; split_ifs at hn ⊢ <;> omega
  have h2 := bufferedCount_eq (rb.wrote n) (by rw [hd, hri]; exact hr) (by rw [hd]; exact hw2)
  rw [hd, hri] at h2
  refine ⟨?_, hw2⟩
  rw [h1, h2, hwi]
  split_ifs at hn ⊢ <;> omega

end WaitAround

namespace WaitAround

/-- `wrap` lands strictly below the capacity for a cursor in the doubled
modulus. -/
theorem wrap_lt (rb : RingBuffer) (idx : Nat) (h : idx < 2 * rb.data.length) :
    rb.wrap idx < rb.data.length := by
  simp only [RingBuffer.wrap]
  split_ifs <;> omega

/-- Writing inside the backing store preserves its length. -/
theorem length_setSlice (data : List Nat) (b : Nat) (src : List Nat)
    (h : b + src.length ≤ data.length) :
    (setSlice data b src).length = data.length := by
  simp only [setSlice, List.length_append, List.length_take, List.length_drop]
  omega

/-- One successful read of `n` bytes: the bytes copied out are the first `n`
logical contents, the remaining contents are the rest, and the invariant is
preserved. -/
theorem contents_read (rb : RingBuffer) (n : Nat) (h : Inv rb)
    (hn : n ≤ rb.readable) :
    (rb.data.drop (rb.wrap rb.read_idx)).take n = (contents rb).take n ∧
      contents (rb.read n) = (contents rb).drop n ∧ Inv (rb.read n) := by
  obtain ⟨hr, hw, hcnt⟩ := h
  rw [readable_eq rb ⟨hr, hw, hcnt⟩] at hn
  have hrw : rb.wrap rb.read_idx ≤ rb.data.length := (cursor_decomp rb ⟨hr, hw, hcnt⟩).1
  have hn1 : n ≤ bufferedCount rb := le_trans hn (min_le_left _ _)
  have hn2 : rb.wrap rb.read_idx + n ≤ rb.data.length := by
    have := le_trans hn (min_le_right _ _)
    omega
  obtain ⟨hcnt', hr2⟩ := bufferedCount_read rb n hr hw hn1
  obtain ⟨hd, hwi, hwk, hri⟩ := read_cursor rb n
  have part1 : (rb.data.drop (rb.wrap rb.read_idx)).take n = (contents rb).take n := by
    simp only [contents]
    rw [List.drop_append_of_le_length hrw, List.take_take, Nat.min_eq_left hn1,
      List.take_append_of_le_length (by simp only [List.length_drop]; omega)]
  have hsplit : (rb.read n).wrap (rb.read n).read_idx = rb.wrap rb.read_idx + n ∨
      (rb.wrap rb.read_idx + n = rb.data.length ∧
        (rb.read n).wrap (rb.read n).read_idx = 0) := by
    simp only [RingBuffer.wrap] at hn2
    simp only [RingBuffer.wrap, hd, hri]
    split_ifs at hn2 ⊢ <;> omega
  have part2 : contents (rb.read n) = (contents rb).drop n := by
    simp only [contents, hd, hcnt']
    rcases hsplit with hs | ⟨hb, hs⟩
    · rw [hs, List.drop_take, List.drop_drop]
    · rw [hs, List.drop_take, List.drop_drop, hb]
      have e2 : (rb.data ++ rb.data).drop rb.data.length = rb.data :=
        List.drop_left' rfl
      rw [e2, List.drop_zero, List.take_append_of_le_length (by omega)]
  refine ⟨part1, part2, ?_, ?_, ?_⟩
  · rw [hd]; exact hr2
  · rw [hd, hwi]; exact hw
  · rw [hcnt', hd]; omega

end WaitAround

namespace WaitAround

/-- Committing `s` at physical position `b` when the buffered region
`[r, b)` does not wrap: the doubled-list slice gains `s` at its end. -/
theorem ring_append_case1 (d s : List Nat) (r b : Nat)
    (hbn : b + s.length ≤ d.length) (hrb : r ≤ b) :
    (((d.take b ++ s ++ d.drop (b + s.length)) ++
        (d.take b ++ s ++ d.drop (b + s.length))).drop r).take ((b - r) + s.length)
      = ((d ++ d).drop r).take (b - r) ++ s := by
  have hlb : (d.take b).length = b := by
    rw [List.length_take]; omega
  have hlbs : (d.take b ++ s).length = b + s.length := by
    rw [List.length_append, hlb]
  have hlX : (d.take b ++ s ++ d.drop (b + s.length)).length = d.length := by
    simp only [List.length_append, List.length_take, List.length_drop]; omega
  have hlA : ((d.drop r).take (b - r)).length = b - r := by
    rw [List.length_take, List.length_drop]; omega
  have e0 : (d.take b ++ s).drop r = (d.drop r).take (b - r) ++ s := by
    rw [List.drop_append_of_le_length (by omega), List.drop_take]
  have e1 : (d.take b ++ s ++ d.drop (b + s.length)).drop r
      = ((d.drop r).take (b - r) ++ s) ++ d.drop (b + s.length) := by
    rw [List.drop_append_of_le_length (by rw [hlbs]; omega), e0]
  have l1 : ((d.take b ++ s ++ d.drop (b + s.length)) ++
      (d.take b ++ s ++ d.drop (b + s.length))).drop r
      = (d.drop r).take (b - r) ++ (s ++ (d.drop (b + s.length) ++
        (d.take b ++ s ++ d.drop (b + s.length)))) := by
    rw [List.drop_append_of_le_length (by rw [hlX]; omega), e1]
    simp [List.append_assoc]
  rw [l1]
  have l2 : ((d.drop r).take (b - r) ++ (s ++ (d.drop (b + s.length) ++
        (d.take b ++ s ++ d.drop (b + s.length))))).take ((b - r) + s.length)
      = ((d.drop r).take (b - r)).take ((b - r) + s.length) ++
        (s ++ (d.drop (b + s.length) ++
          (d.take b ++ s ++ d.drop (b + s.length)))).take
          ((b - r) + s.length - ((d.drop r).take (b - r)).length) :=
    List.take_append_eq_append_take
  rw [l2, List.take_of_length_le (by rw [hlA]; omega), hlA]
  have l3 : (b - r) + s.length - (b - r) = s.length := by omega
  rw [l3]
  have l4 : (s ++ (d.drop (b + s.length) ++
      (d.take b ++ s ++ d.drop (b + s.length)))).take s.length = s := by
    rw [List.take_append_of_le_length (le_refl s.length), List.take_length]
  rw [l4]
  have r1 : (d ++ d).drop r = d.drop r ++ d := List.drop_append_of_le_length (by omega)
  rw [r1, List.take_append_of_le_length (by rw [List.length_drop]; omega)]

/-- Committing `s` at physical position `b` when the buffered region wraps
around the end of the store (`b + s.length ≤ r`): the doubled-list slice
gains `s` at its end. -/
theorem ring_append_case2 (d s : List Nat) (r b : Nat)
    (hr : r ≤ d.length) (hbn : b + s.length ≤ r) :
    (((d.take b ++ s ++ d.drop (b + s.length)) ++
        (d.take b ++ s ++ d.drop (b + s.length))).drop r).take
        ((b + d.length - r) + s.length)
      = ((d ++ d).drop r).take (b + d.length - r) ++ s := by
  have hlb : (d.take b).length = b := by
    rw [List.length_take]; omega
  have hlbs : (d.take b ++ s).length = b + s.length := by
    rw [List.length_append, hlb]
  have hlX : (d.take b ++ s ++ d.drop (b + s.length)).length = d.length := by
    simp only [List.length_append, List.length_take, List.length_drop]; omega
  have e1 : (d.take b ++ s ++ d.drop (b + s.length)).drop r = d.drop r := by
    rw [List.drop_append_eq_append_drop, List.drop_eq_nil_of_le (by rw [hlbs]; omega),
      hlbs, List.drop_drop]
    have e : b + s.length + (r - (b + s.length)) = r := by omega
    rw [e, List.nil_append]
  have e2 : (d.take b ++ s ++ d.drop (b + s.length)).take (b + s.length)
      = d.take b ++ s := by
    rw [List.take_append_of_le_length hlbs.ge, List.take_of_length_le hlbs.le]
  have l1 : ((d.take b ++ s ++ d.drop (b + s.length)) ++
      (d.take b ++ s ++ d.drop (b + s.length))).drop r
      = d.drop r ++ (d.take b ++ s ++ d.drop (b + s.length)) := by
    rw [List.drop_append_of_le_length (by rw [hlX]; omega), e1]
  rw [l1]
  have l2 : (d.drop r ++ (d.take b ++ s ++ d.drop (b + s.length))).take
        ((b + d.length - r) + s.length)
      = (d.drop r).take ((b + d.length - r) + s.length) ++
        (d.take b ++ s ++ d.drop (b + s.length)).take
          ((b + d.length - r) + s.length - (d.drop r).length) :=
    List.take_append_eq_append_take
  rw [l2, List.take_of_length_le (by rw [List.length_drop]; omega)]
  have l3 : (b + d.length - r) + s.length - (d.drop r).length = b + s.length := by
    rw [List.length_drop]; omega
  rw [l3, e2]
  have r1 : (d ++ d).drop r = d.drop r ++ d := List.drop_append_of_le_length hr
  have r2 : (d.drop r ++ d).take (b + d.length - r)
      = (d.drop r).take (b + d.length - r) ++
        d.take ((b + d.length - r) - (d.drop r).length) :=
    List.take_append_eq_append_take
  have r3 : (d.drop r).take (b + d.length - r) = d.drop r :=
    List.take_of_length_le (by rw [List.length_drop]; omega)
  have r4 : (b + d.length - r) - (d.drop r).length = b := by
    rw [List.length_drop]; omega
  rw [r1, r2, r3, r4, List.append_assoc]

end WaitAround

namespace WaitAround

/-- `wrap` depends on the state only through the length of the backing
store. -/
theorem wrap_eq_of_length_eq (rb1 rb2 : RingBuffer)
    (h : rb1.data.length = rb2.data.length) (i : Nat) :
    rb1.wrap i = rb2.wrap i := by
  simp only [RingBuffer.wrap, h]

/-- One successful write of the bytes `s` (the `n > 0` branch of
`poll_write` up to the waker handling): committing `s` at the physical
write position appends `s` to the logical contents and preserves the
invariant. -/
theorem contents_write (rb : RingBuffer) (s : List Nat) (h : Inv rb)
    (hs : s.length ≤ rb.writeable) :
    contents (({ rb with data := setSlice rb.data (rb.wrap rb.write_idx) s }).wrote s.length)
        = contents rb ++ s ∧
      Inv (({ rb with data := setSlice rb.data (rb.wrap rb.write_idx) s }).wrote s.length) := by
  obtain ⟨hr, hw, hcnt⟩ := h
  rw [writeable_eq rb ⟨hr, hw, hcnt⟩] at hs
  have hwlt : rb.wrap rb.write_idx < rb.data.length := wrap_lt rb rb.write_idx hw
  have hrle : rb.wrap rb.read_idx ≤ rb.data.length := (cursor_decomp rb ⟨hr, hw, hcnt⟩).1
  have hF := (cursor_decomp rb ⟨hr, hw, hcnt⟩).2.2
  have hs1 : bufferedCount rb + s.length ≤ rb.data.length := by
    have := le_trans hs (min_le_left _ _); omega
  have hs2 : rb.wrap rb.write_idx + s.length ≤ rb.data.length := by
    have := le_trans hs (min_le_right _ _); omega
  have hlen : (setSlice rb.data (rb.wrap rb.write_idx) s).length = rb.data.length :=
    length_setSlice _ _ _ (by omega)
  have hbc1 : bufferedCount { rb with data := setSlice rb.data (rb.wrap rb.write_idx) s }
      = bufferedCount rb := by
    simp only [bufferedCount, hlen]
  obtain ⟨hbcw, hw2⟩ := bufferedCount_wrote
    { rb with data := setSlice rb.data (rb.wrap rb.write_idx) s } s.length
    (by simpa [hlen] using hr) (by simpa [hlen] using hw)
    (by simpa [hlen, hbc1] using hs1)
  obtain ⟨hdw, hrw2, hwkw, hwiw⟩ := wrote_cursor
    { rb with data := setSlice rb.data (rb.wrap rb.write_idx) s } s.length
  have hlw : (({ rb with data := setSlice rb.data (rb.wrap rb.write_idx) s }).wrote
      s.length).data.length = rb.data.length := by
    rw [hdw]; exact hlen
  have hwrap : (({ rb with data := setSlice rb.data (rb.wrap rb.write_idx) s }).wrote
        s.length).wrap (({ rb with data := setSlice rb.data (rb.wrap rb.write_idx) s }).wrote
        s.length).read_idx = rb.wrap rb.read_idx := by
    rw [hrw2]
    exact wrap_eq_of_length_eq _ _ hlw _
  constructor
  · simp only [contents, hdw, hwrap, hbcw, hbc1]
    simp only [setSlice]
    rcases hF with hF | hF
    · have hc : bufferedCount rb = rb.wrap rb.write_idx - rb.wrap rb.read_idx := by omega
      rw [hc]
      exact ring_append_case1 rb.data s (rb.wrap rb.read_idx) (rb.wrap rb.write_idx)
        (by omega) (by omega)
    · have hc : bufferedCount rb
          = rb.wrap rb.write_idx + rb.data.length - rb.wrap rb.read_idx := by omega
      rw [hc]
      exact ring_append_case2 rb.data s (rb.wrap rb.read_idx) (rb.wrap rb.write_idx)
        hrle (by omega)
  · unfold Inv
    refine ⟨?_, ?_, ?_⟩
    · simpa [hrw2, hdw, hlen] using hr
    · simpa [hdw, hlen] using hw2
    · rw [hbcw, hbc1]
      simp only [hdw, hlen]
      omega

end WaitAround

namespace WaitAround

/-- An operation issued against the pipe (the tests' `Operation` type):
a write of a byte buffer or a read with a buffer size. -/
inductive Op where
  | write : List Nat → Op
  | read : Nat → Op

/-- The tests' oracle `Model::write`: append, then truncate the queue to
the capacity; returns the number of bytes kept together with the new
queue. -/
def modelWrite (capacity : Nat) (q : List Nat) (bytes : List Nat) : Nat × List Nat :=
  let before := q.length
  let q1 := q ++ bytes
  let q2 := q1.take (min capacity q1.length)
  (q2.length - before, q2)

/-- The tests' oracle `Model::read`: drain up to `n` leading bytes;
returns them together with the new queue. -/
def modelRead (q : List Nat) (n : Nat) : List Nat × List Nat :=
  (q.take (min n q.length), q.drop (min n q.length))

/-- A lockstep run of the ring and the oracle: the ring state, the oracle
queue, the concatenations of all accepted and all delivered bytes, and a
flag recording whether ring and oracle have agreed on every operation so
far. -/
structure Trace where
  rb : RingBuffer
  model : List Nat
  accepted : List Nat
  delivered : List Nat
  agree : Bool

/-- Drive one operation against both the ring and the oracle, the way the
property test does: the oracle write is fed exactly the prefix the ring
accepted, the oracle read is asked for exactly the count the ring
delivered. -/
def stepOp (t : Trace) (op : Op) : Trace :=
  match op with
  | Op.write buf =>
    let o := poll_write t.rb buf 0
    match o.result with
    | Poll.Ready (Except.ok n) =>
      let m := modelWrite t.rb.data.length t.model (buf.take n)
      { rb := o.state, model := m.2, accepted := t.accepted ++ buf.take n,
        delivered := t.delivered, agree := t.agree && (m.1 == n) }
    | _ => { t with rb := o.state }
  | Op.read len =>
    let o := poll_read t.rb len 0
    match o.result with
    | Poll.Ready (Except.ok out) =>
      let m := modelRead t.model out.length
      { rb := o.state, model := m.2, accepted := t.accepted,
        delivered := t.delivered ++ out, agree := t.agree && (m.1 == out) }
    | _ => { t with rb := o.state }

/-- The initial lockstep state over a fresh pipe of capacity `n`. -/
def initTrace (n : Nat) : Trace :=
  { rb := RingBuffer.with_capacity n, model := [], accepted := [],
    delivered := [], agree := true }

/-- Run a whole operation sequence from a fresh pipe of capacity `n`. -/
def runOps (n : Nat) (ops : List Op) : Trace :=
  ops.foldl stepOp (initTrace n)

/-- The lockstep simulation invariant: the ring state is legal, the bytes
accepted so far are the bytes delivered so far followed by the buffered
contents, the oracle queue coincides with the buffered contents, and ring
and oracle have agreed on every operation. -/
def GoodTrace (t : Trace) : Prop :=
  Inv0 t.rb ∧ t.accepted = t.delivered ++ contents t.rb ∧
    t.model = contents t.rb ∧ t.agree = true

/-- The waker slot does not influence the logical contents. -/
theorem contents_setWaker (rb : RingBuffer) (wk : Option Nat) :
    contents { rb with waker := wk } = contents rb := rfl

/-- The waker slot does not influence the invariant. -/
theorem Inv0_setWaker (rb : RingBuffer) (wk : Option Nat) :
    Inv0 { rb with waker := wk } ↔ Inv0 rb := Iff.rfl

/-- The state left by `wake` has the same logical contents. -/
theorem contents_wake (rb : RingBuffer) : contents (rb.wake).2 = contents rb := rfl

/-- The state left by `wake` satisfies the same invariant. -/
theorem Inv0_wake (rb : RingBuffer) : Inv0 (rb.wake).2 ↔ Inv0 rb := Iff.rfl

/-- `wake` returns the previously stored waker token and empties the slot. -/
theorem wake_spec (rb : RingBuffer) :
    (rb.wake).1 = rb.waker ∧ (rb.wake).2.waker = none := ⟨rfl, rfl⟩

/-- On an `Inv` state the logical contents hold exactly the buffered byte
count. -/
theorem contents_length (rb : RingBuffer) (h : Inv rb) :
    (contents rb).length = bufferedCount rb := by
  have h1 := (cursor_decomp rb h).1
  obtain ⟨hr, hw, hcnt⟩ := h
  simp only [contents, List.length_take, List.length_drop, List.length_append]
  omega

/-- On the (only reachable) capacity-0 state everything is trivial: no
contents, no buffered bytes, nothing readable, nothing writable. -/
theorem contents_nil (rb : RingBuffer) (h : rb.data = []) (hr : rb.read_idx = 0)
    (hw : rb.write_idx = 0) :
    contents rb = [] ∧ bufferedCount rb = 0 ∧ rb.readable = 0 ∧ rb.writeable = 0 := by
  simp [contents, bufferedCount, RingBuffer.readable, RingBuffer.writeable,
    RingBuffer.wrap, h, hr, hw]

/-- The oracle write keeps everything when the queue has room. -/
theorem modelWrite_spec (capacity : Nat) (q s : List Nat)
    (h : q.length + s.length ≤ capacity) :
    modelWrite capacity q s = (s.length, q ++ s) := by
  simp only [modelWrite]
  rw [Nat.min_eq_right (by rw [List.length_append]; omega), List.take_length,
    List.length_append, Nat.add_sub_cancel_left]

/-- The oracle read drains exactly `n` bytes when they are available. -/
theorem modelRead_spec (q : List Nat) (n : Nat) (h : n ≤ q.length) :
    modelRead q n = (q.take n, q.drop n) := by
  simp only [modelRead]
  rw [Nat.min_eq_left h]

/-- The fresh state of `with_capacity` is legal and empty. -/
theorem with_capacity_good (n : Nat) :
    Inv0 (RingBuffer.with_capacity n) ∧ contents (RingBuffer.with_capacity n) = [] := by
  constructor
  · rcases Nat.eq_zero_or_pos n with h | h
    · right
      simp [RingBuffer.with_capacity, h]
    · left
      refine ⟨?_, ?_, ?_⟩ <;>
        simp [RingBuffer.with_capacity, bufferedCount, List.length_replicate] <;> omega
  · simp [contents, bufferedCount, RingBuffer.with_capacity, RingBuffer.wrap]

end WaitAround

namespace WaitAround

/-- One driven operation preserves the lockstep simulation invariant. -/
theorem stepOp_good (t : Trace) (op : Op) (h : GoodTrace t) : GoodTrace (stepOp t op) := by
  obtain ⟨hinv, hacc, hmod, hagree⟩ := h
  cases op with
  | write buf =>
    by_cases hn : 0 < min t.rb.writeable buf.length
    · rcases hinv with hInv | ⟨hd0, hr0, hw0⟩
      · simp only [stepOp, poll_write, if_pos hn]
        have hnle : min t.rb.writeable buf.length ≤ t.rb.writeable := min_le_left _ _
        have hnbuf : min t.rb.writeable buf.length ≤ buf.length := min_le_right _ _
        have hsl : (buf.take (min t.rb.writeable buf.length)).length
            = min t.rb.writeable buf.length := by
          rw [List.length_take]; omega
        have hcw := contents_write t.rb (buf.take (min t.rb.writeable buf.length)) hInv
          (by rw [hsl]; exact hnle)
        rw [hsl] at hcw
        obtain ⟨hceq, hInv2⟩ := hcw
        have hwe := writeable_eq t.rb hInv
        have hcl := contents_length t.rb hInv
        have hcb : bufferedCount t.rb ≤ t.rb.data.length := hInv.2.2
        have hbound : (contents t.rb).length
            + (buf.take (min t.rb.writeable buf.length)).length ≤ t.rb.data.length := by
          rw [hcl, hsl]; omega
        refine ⟨?_, ?_, ?_, ?_⟩ <;> dsimp only
        · exact (Inv0_wake _).mpr (Or.inl hInv2)
        · rw [contents_wake, hceq, hacc, List.append_assoc]
        · rw [hmod, contents_wake, hceq, modelWrite_spec _ _ _ hbound]
        · rw [hmod, modelWrite_spec _ _ _ hbound, hagree]
          simp [hsl]
      · exfalso
        have h0 := (contents_nil t.rb hd0 hr0 hw0).2.2.2
        omega
    · simp only [stepOp, poll_write, if_neg hn]
      exact ⟨hinv, hacc, hmod, hagree⟩
  | read len =>
    by_cases hn : 0 < min t.rb.readable len
    · rcases hinv with hInv | ⟨hd0, hr0, hw0⟩
      · simp only [stepOp, poll_read, if_pos hn]
        have hnle : min t.rb.readable len ≤ t.rb.readable := min_le_left _ _
        obtain ⟨hout, hcontents, hInv2⟩ :=
          contents_read t.rb (min t.rb.readable len) hInv hnle
        have hre := readable_eq t.rb hInv
        have hcl := contents_length t.rb hInv
        have houtlen : ((t.rb.data.drop (t.rb.wrap t.rb.read_idx)).take
            (min t.rb.readable len)).length = min t.rb.readable len := by
          rw [hout, List.length_take, hcl]
          omega
        refine ⟨?_, ?_, ?_, ?_⟩ <;> dsimp only
        · exact (Inv0_wake _).mpr (Or.inl hInv2)
        · rw [contents_wake, hcontents, hout, hacc, List.append_assoc,
            List.take_append_drop]
        · rw [hmod, contents_wake, hcontents, houtlen,
            modelRead_spec _ _ (by rw [hcl]; omega)]
        · rw [hmod, houtlen, modelRead_spec _ _ (by rw [hcl]; omega), hagree, hout]
          simp
      · exfalso
        have h0 := (contents_nil t.rb hd0 hr0 hw0).2.2.1
        omega
    · simp only [stepOp, poll_read, if_neg hn]
      exact ⟨hinv, hacc, hmod, hagree⟩

/-- Folding driven operations preserves the simulation invariant. -/
theorem foldl_good (ops : List Op) :
    ∀ t : Trace, GoodTrace t → GoodTrace (ops.foldl stepOp t) := by
  induction ops with
  | nil => intro t h; exact h
  | cons op rest ih => intro t h; exact ih _ (stepOp_good t op h)

/-- Every complete run from a fresh pipe satisfies the simulation
invariant. -/
theorem runOps_good (n : Nat) (ops : List Op) : GoodTrace (runOps n ops) := by
  obtain ⟨h1, h2⟩ := with_capacity_good n
  exact foldl_good ops _ ⟨h1, by simp [initTrace, h2], by simp [initTrace, h2], rfl⟩

end WaitAround

namespace WaitAround

/-- The spec's formula for the readable count, with physical positions
written as `mod capacity` the way §4.1 states it. -/
def specReadable (rb : RingBuffer) : Nat :=
  if rb.read_idx = rb.write_idx then 0
  else
    let r := rb.read_idx % rb.data.length
    let w := rb.write_idx % rb.data.length
    if r < w then w - r else rb.data.length - r

/-- The spec's formula for the writable count:
`min(capacity - bufferedBytes, capacity - (write_idx mod capacity))`. -/
def specWriteable (rb : RingBuffer) : Nat :=
  let free := rb.data.length
    - (2 * rb.data.length + rb.write_idx - rb.read_idx) % (2 * rb.data.length)
  let space_before_end := rb.data.length - rb.write_idx % rb.data.length
  min free space_before_end

/-- C1: over every driven operation sequence from a fresh pipe, the
concatenation of bytes delivered by successful reads equals the prefix, of
its own length, of the concatenation of bytes accepted by successful
writes; and the ring agrees with the unbounded-queue oracle model driven
in lockstep on every operation. -/
theorem C1_fifo_conservation (n : Nat) (ops : List Op) :
    (runOps n ops).delivered
        = (runOps n ops).accepted.take (runOps n ops).delivered.length ∧
      (runOps n ops).agree = true := by
  obtain ⟨hinv, hacc, hmod, hagree⟩ := runOps_good n ops
  refine ⟨?_, hagree⟩
  rw [hacc, List.take_append_of_le_length (le_refl _), List.take_length]

/-- C2 counterexample: on a ring holding two readable bytes, a zero-length
read does not complete with `Ready (Ok 0)` as the claim states: it takes
the pending branch (parking the waker) even though readable bytes exist;
the zero-length write behaves the same way. -/
theorem C2_counterexample :
    (poll_read { data := [0, 0, 0, 0], read_idx := 0, write_idx := 2, waker := none }
        0 7).result = Poll.Pending ∧
      (poll_write { data := [0, 0, 0, 0], read_idx := 0, write_idx := 2, waker := none }
        [] 7).result = Poll.Pending ∧
      RingBuffer.readable
        { data := [0, 0, 0, 0], read_idx := 0, write_idx := 2, waker := none } = 2 :=
  ⟨rfl, rfl, rfl⟩

/-- C2 amended: a zero-length caller buffer always takes the pending
branch: the poll returns `Pending` and parks the caller's waker, whatever
the ring holds; in general the pending branch is taken exactly when
`min(available, bufLen) = 0`. -/
theorem C2_zero_length_pending (rb : RingBuffer) (bufLen : Nat) (buf : List Nat)
    (w : Nat) :
    (poll_read rb 0 w).result = Poll.Pending ∧
      (poll_read rb 0 w).state = rb.park w ∧
      (poll_write rb [] w).result = Poll.Pending ∧
      (poll_write rb [] w).state = rb.park w ∧
      ((poll_read rb bufLen w).result = Poll.Pending ↔ min rb.readable bufLen = 0) ∧
      ((poll_write rb buf w).result = Poll.Pending ↔ min rb.writeable buf.length = 0) := by
  refine ⟨by simp [poll_read], by simp [poll_read], by simp [poll_write],
    by simp [poll_write], ?_, ?_⟩
  · by_cases h2 : 0 < min rb.readable bufLen
    · simp only [poll_read, if_pos h2]
      constructor
      · intro hc
        exact absurd hc (by simp)
      · intro hc
        omega
    · simp only [poll_read, if_neg h2]
      constructor
      · intro hc
        omega
      · intro hc
        trivial
  · by_cases h2 : 0 < min rb.writeable buf.length
    · simp only [poll_write, if_pos h2]
      constructor
      · intro hc
        exact absurd hc (by simp)
      · intro hc
        omega
    · simp only [poll_write, if_neg h2]
      constructor
      · intro hc
        omega
      · intro hc
        trivial

/-- C3: on every state satisfying the cursor invariants, the code's
`readable` computes the spec's case formula. -/
theorem C3_readable_spec (rb : RingBuffer) (h : Inv rb) :
    rb.readable = specReadable rb := by
  obtain ⟨hr, hw, hcnt⟩ := h
  simp only [RingBuffer.readable, specReadable,
    wrap_eq_mod rb rb.read_idx (Or.inl hr), wrap_eq_mod rb rb.write_idx (Or.inl hw)]

/-- C3 witness: the formula agreement checked on a concrete wrapped state. -/
theorem C3_witness :
    Inv { data := [10, 20, 30, 40], read_idx := 3, write_idx := 5, waker := none } ∧
      RingBuffer.readable
          { data := [10, 20, 30, 40], read_idx := 3, write_idx := 5, waker := none }
        = specReadable
          { data := [10, 20, 30, 40], read_idx := 3, write_idx := 5, waker := none } :=
  ⟨by decide, C3_readable_spec _ (by decide)⟩

/-- C4: on every state satisfying the cursor invariants, the code's
`writeable` computes `min(free, spaceBeforeEnd)` as the spec states it. -/
theorem C4_writeable_spec (rb : RingBuffer) (h : Inv rb) :
    rb.writeable = specWriteable rb := by
  have hw := h.2.1
  rw [writeable_eq rb h]
  simp only [specWriteable, bufferedCount, wrap_eq_mod rb rb.write_idx (Or.inl hw)]

/-- C4 witness: the formula agreement checked on a concrete wrapped state. -/
theorem C4_witness :
    Inv { data := [10, 20, 30, 40], read_idx := 3, write_idx := 5, waker := none } ∧
      RingBuffer.writeable
          { data := [10, 20, 30, 40], read_idx := 3, write_idx := 5, waker := none }
        = specWriteable
          { data := [10, 20, 30, 40], read_idx := 3, write_idx := 5, waker := none } :=
  ⟨by decide, C4_writeable_spec _ (by decide)⟩

end WaitAround

namespace WaitAround

/-- The state left by `wake` satisfies the invariant exactly when the state
before did. -/
theorem Inv_wake (rb : RingBuffer) : Inv (rb.wake).2 ↔ Inv rb := Iff.rfl

/-- C5 counterexample: the invariant as stated fails on the state produced
by `with_capacity 0`: its cursors are `0` yet `[0, 2*capacity) = [0, 0)` is
empty. -/
theorem C5_counterexample : ¬ Inv (RingBuffer.with_capacity 0) := by decide

/-- C5 amended: for every positive capacity, the invariant holds initially
after `with_capacity`, and it is preserved by every `poll_read` and
`poll_write` from every state satisfying it (a capacity-0 construction
instead keeps both cursors pinned at `0`). -/
theorem C5_invariant (n : Nat) (rb : RingBuffer) (bufLen : Nat) (buf : List Nat)
    (w : Nat) (hn : 0 < n) (h : Inv rb) :
    Inv (RingBuffer.with_capacity n) ∧ Inv (poll_read rb bufLen w).state ∧
      Inv (poll_write rb buf w).state := by
  refine ⟨?_, ?_, ?_⟩
  · refine ⟨?_, ?_, ?_⟩ <;> simp [RingBuffer.with_capacity, bufferedCount] <;> omega
  · by_cases h2 : 0 < min rb.readable bufLen
    · simp only [poll_read, if_pos h2]
      exact (Inv_wake _).mpr (contents_read rb _ h (min_le_left _ _)).2.2
    · simp only [poll_read, if_neg h2]
      exact h
  · by_cases h2 : 0 < min rb.writeable buf.length
    · simp only [poll_write, if_pos h2]
      have hsl : (buf.take (min rb.writeable buf.length)).length
          = min rb.writeable buf.length := by
        rw [List.length_take]; omega
      have hcw := contents_write rb (buf.take (min rb.writeable buf.length)) h
        (by rw [hsl]; exact min_le_left _ _)
      rw [hsl] at hcw
      exact (Inv_wake _).mpr hcw.2
    · simp only [poll_write, if_neg h2]
      exact h

/-- C5 witness: the amended invariant applied at capacity 2 and a concrete
wrapped state. -/
theorem C5_witness :
    0 < 2 ∧
      Inv { data := [10, 20, 30, 40], read_idx := 3, write_idx := 5, waker := none } ∧
      Inv (RingBuffer.with_capacity 2) :=
  ⟨by decide, by decide,
    (C5_invariant 2 ⟨[10, 20, 30, 40], 3, 5, none⟩ 1 [5] 0
      (by decide) (by decide)).1⟩

/-- C6: on the states a capacity-0 pipe can reach (both cursors stay `0`),
nothing is readable or writable, every poll of either endpoint returns
`Pending` and parks the caller's waker, and the cursors and data are left
unchanged — progress never occurs. -/
theorem C6_capacity_zero (rb : RingBuffer) (bufLen : Nat) (buf : List Nat) (w : Nat)
    (hd : rb.data = []) (hr : rb.read_idx = 0) (hw : rb.write_idx = 0) :
    rb.readable = 0 ∧ rb.writeable = 0 ∧
      (poll_read rb bufLen w).result = Poll.Pending ∧
      (poll_read rb bufLen w).state = rb.park w ∧
      (poll_write rb buf w).result = Poll.Pending ∧
      (poll_write rb buf w).state = rb.park w := by
  obtain ⟨hc, hb, hre, hwe⟩ := contents_nil rb hd hr hw
  refine ⟨hre, hwe, ?_, ?_, ?_, ?_⟩ <;> simp [poll_read, poll_write, hre, hwe]

/-- C6 witness: the capacity-0 behaviour at the freshly constructed state. -/
theorem C6_witness :
    (RingBuffer.with_capacity 0).data = [] ∧
      (poll_read (RingBuffer.with_capacity 0) 3 5).result = Poll.Pending ∧
      (poll_write (RingBuffer.with_capacity 0) [9] 5).result = Poll.Pending :=
  ⟨rfl, (C6_capacity_zero (RingBuffer.with_capacity 0) 3 [9] 5 rfl rfl rfl).2.2.1,
    (C6_capacity_zero (RingBuffer.with_capacity 0) 3 [9] 5 rfl rfl rfl).2.2.2.2.1⟩

/-- C7: a poll that returns `Pending` leaves the cursors and the data
exactly as they were; only the waker slot changes, recording the caller's
waker. -/
theorem C7_pending_frame (rb : RingBuffer) (bufLen : Nat) (buf : List Nat) (w : Nat) :
    ((poll_read rb bufLen w).result = Poll.Pending →
      (poll_read rb bufLen w).state.read_idx = rb.read_idx ∧
        (poll_read rb bufLen w).state.write_idx = rb.write_idx ∧
        (poll_read rb bufLen w).state.data = rb.data ∧
        (poll_read rb bufLen w).state.waker = some w) ∧
      ((poll_write rb buf w).result = Poll.Pending →
        (poll_write rb buf w).state.read_idx = rb.read_idx ∧
          (poll_write rb buf w).state.write_idx = rb.write_idx ∧
          (poll_write rb buf w).state.data = rb.data ∧
          (poll_write rb buf w).state.waker = some w) := by
  constructor
  · intro hres
    by_cases h2 : 0 < min rb.readable bufLen
    · exact absurd hres (by simp only [poll_read, if_pos h2]; simp)
    · simp only [poll_read, if_neg h2]
      exact ⟨rfl, rfl, rfl, rfl⟩
  · intro hres
    by_cases h2 : 0 < min rb.writeable buf.length
    · exact absurd hres (by simp only [poll_write, if_pos h2]; simp)
    · simp only [poll_write, if_neg h2]
      exact ⟨rfl, rfl, rfl, rfl⟩

/-- C7 witness: the frame condition at a state on which both polls pend. -/
theorem C7_witness :
    (poll_read (RingBuffer.with_capacity 0) 3 5).state.read_idx
        = (RingBuffer.with_capacity 0).read_idx ∧
      (poll_write (RingBuffer.with_capacity 0) [9] 5).state.data
        = (RingBuffer.with_capacity 0).data :=
  ⟨((C7_pending_frame (RingBuffer.with_capacity 0) 3 [9] 5).1 rfl).1,
    ((C7_pending_frame (RingBuffer.with_capacity 0) 3 [9] 5).2 rfl).2.2.1⟩

/-- C8: flush and close return immediate success without touching the
state, and read/write polls never return the error arm. -/
theorem C8_no_errors (rb : RingBuffer) (bufLen : Nat) (buf : List Nat) (w : Nat) :
    poll_flush rb = { result := Poll.Ready (Except.ok ()), signaled := none, state := rb } ∧
      poll_close rb = { result := Poll.Ready (Except.ok ()), signaled := none, state := rb } ∧
      (poll_read rb bufLen w).result ≠ Poll.Ready (Except.error ()) ∧
      (poll_write rb buf w).result ≠ Poll.Ready (Except.error ()) := by
  refine ⟨rfl, rfl, ?_, ?_⟩
  · by_cases h2 : 0 < min rb.readable bufLen
    · simp only [poll_read, if_pos h2]; simp
    · simp only [poll_read, if_neg h2]; simp
  · by_cases h2 : 0 < min rb.writeable buf.length
    · simp only [poll_write, if_pos h2]; simp
    · simp only [poll_write, if_neg h2]; simp

/-- C9: a poll that makes progress signals exactly the waker stored in the
slot (if any) and leaves the slot empty afterwards. -/
theorem C9_wake_on_progress (rb : RingBuffer) (bufLen : Nat) (buf : List Nat)
    (w : Nat) (out : List Nat) (m : Nat) :
    ((poll_read rb bufLen w).result = Poll.Ready (Except.ok out) →
      (poll_read rb bufLen w).signaled = rb.waker ∧
        (poll_read rb bufLen w).state.waker = none) ∧
      ((poll_write rb buf w).result = Poll.Ready (Except.ok m) →
        (poll_write rb buf w).signaled = rb.waker ∧
          (poll_write rb buf w).state.waker = none) := by
  constructor
  · intro hres
    by_cases h2 : 0 < min rb.readable bufLen
    · simp only [poll_read, if_pos h2]
      exact ⟨rfl, rfl⟩
    · exact absurd hres (by simp only [poll_read, if_neg h2]; simp)
  · intro hres
    by_cases h2 : 0 < min rb.writeable buf.length
    · simp only [poll_write, if_pos h2]
      exact ⟨rfl, rfl⟩
    · exact absurd hres (by simp only [poll_write, if_neg h2]; simp)

/-- C9 witness: a successful read and a successful write on a state with a
parked waker signal it and clear the slot. -/
theorem C9_witness :
    (poll_read { data := [5, 6], read_idx := 0, write_idx := 1, waker := some 3 }
        4 9).signaled = some 3 ∧
      (poll_write { data := [5, 6], read_idx := 0, write_idx := 1, waker := some 3 }
        [7] 9).state.waker = none :=
  ⟨((C9_wake_on_progress ⟨[5, 6], 0, 1, some 3⟩ 4 [7] 9 [5] 1).1 rfl).1,
    ((C9_wake_on_progress ⟨[5, 6], 0, 1, some 3⟩ 4 [7] 9 [5] 1).2 rfl).2⟩

/-- The in-range conditions under which the total embedding agrees with
the partial Rust arithmetic: the cursor difference taken inside
`writeable` does not underflow and stays within the capacity, and the
copy ranges of `poll_read` and `poll_write` end within the store. -/
def ArithSafe (rb : RingBuffer) (bufLenR : Nat) (bufW : List Nat) : Prop :=
  (rb.read_idx ≤ (if rb.write_idx < rb.read_idx then rb.write_idx + 2 * rb.data.length
        else rb.write_idx) ∧
      (if rb.write_idx < rb.read_idx then rb.write_idx + 2 * rb.data.length
        else rb.write_idx) - rb.read_idx ≤ rb.data.length) ∧
    rb.wrap rb.read_idx + min rb.readable bufLenR ≤ rb.data.length ∧
    rb.wrap rb.write_idx + min rb.writeable bufW.length ≤ rb.data.length

instance (rb : RingBuffer) (bufLenR : Nat) (bufW : List Nat) :
    Decidable (ArithSafe rb bufLenR bufW) := by
  unfold ArithSafe
  infer_instance

/-- C10: on every state satisfying the reachable-state invariant, the
subtraction in `writeable` cannot underflow and both copy ranges stay in
bounds, for every caller buffer. -/
theorem C10_arith_safe (rb : RingBuffer) (bufLenR : Nat) (bufW : List Nat)
    (h : Inv0 rb) : ArithSafe rb bufLenR bufW := by
  rcases h with hInv | ⟨hd, hr0, hw0⟩
  · have hre := readable_eq rb hInv
    have hwe := writeable_eq rb hInv
    obtain ⟨hd1, hd2, hd3⟩ := cursor_decomp rb hInv
    have hb := bufferedCount_eq rb hInv.1 hInv.2.1
    obtain ⟨hr, hw, hcnt⟩ := hInv
    refine ⟨⟨?_, ?_⟩, ?_, ?_⟩
    · split_ifs <;> omega
    · split_ifs at hb ⊢ <;> omega
    · omega
    · omega
  · obtain ⟨hc, hb, hre, hwe⟩ := contents_nil rb hd hr0 hw0
    refine ⟨⟨?_, ?_⟩, ?_, ?_⟩ <;> simp [hd, hr0, hw0, hre, hwe, RingBuffer.wrap]

/-- C10 witness: the safety conditions at a concrete wrapped state and
concrete buffers. -/
theorem C10_witness :
    Inv0 { data := [10, 20, 30, 40], read_idx := 3, write_idx := 5, waker := none } ∧
      ArithSafe ⟨[10, 20, 30, 40], 3, 5, none⟩ 5 [1, 2, 3] :=
  ⟨by decide,
    C10_arith_safe ⟨[10, 20, 30, 40], 3, 5, none⟩ 5 [1, 2, 3] (by decide)⟩

end WaitAround

namespace WaitAround

/-- C8 witness: the error-free results at a concrete state. -/
theorem C8_witness :
    (poll_read { data := [5, 6], read_idx := 0, write_idx := 1, waker := none }
        4 9).result ≠ Poll.Ready (Except.error ()) ∧
      (poll_write { data := [5, 6], read_idx := 0, write_idx := 1, waker := none }
        [7] 9).result ≠ Poll.Ready (Except.error ()) :=
  ⟨(C8_no_errors ⟨[5, 6], 0, 1, none⟩ 4 [7] 9).2.2.1,
    (C8_no_errors ⟨[5, 6], 0, 1, none⟩ 4 [7] 9).2.2.2⟩

end WaitAround
